import Mathlib

/-
  Verification development for the SSA (stochastic simulation algorithm)
  solver core declared in src/urdme/src/ssa/ssa.h.

  The repository ships only the declaration of the solver:

    void ssa(const PropensityFun *rfun, const int *u0,
             const size_t *irN, const size_t *jcN, const int *prN,
             const size_t *irG, const size_t *jcG,
             const double *tspan, const size_t tlen, int *U,
             const double *vol, const double *ldata, const double *gdata,
             const int *sd, const size_t Ncells,
             const size_t Mspecies, const size_t Mreactions,
             const size_t dsize, int report_level,
             const double *K, const int *I,
             const size_t *jcS, const int *prS, const size_t M1);

  The body of the solver is modelled from the specification (spec.md),
  section by section: the Direct-Method event selector and clock (§4.3),
  the state mutator (§4.4), the trajectory recorder (§4.5), the
  incremental propensity-table maintenance (§4.2) and the driver loop
  (§4.6).  Counts are integers, real quantities are rationals, and the
  random stream is an explicit input sequence of uniform draws.
-/

namespace SSA

/-- An event of the jump process: a reaction firing in a cell, or a
diffusion channel firing (a single molecule jumping between two cells). -/
inductive Event where
  | reaction (c r : ℕ)
  | diffusion (j : ℕ)
deriving DecidableEq

/-- Modelled from the spec: the full input record of the `ssa` call
(ssa.h).  The body of ssa.c is absent from the repository, so the inputs
are represented in their mathematical form rather than as the sparse
CSC arrays of the C signature:

* `rfun` — the caller-supplied propensity-function table, one function
  per reaction index, taking the cell's species counts, the current
  time, the cell volume, the local parameter block, the global
  parameter block and the subdomain label (§4.1, §6);
* `N` — the stoichiometry matrix (irN/jcN/prN): `N s r` is the signed
  change of species `s` when reaction `r` fires (§3);
* `deps` — the dependency graph (irG/jcG): the (cell, entry) pairs of
  the propensity table that must be recomputed after an event (§3, §4.2);
* `K`, `src`, `dst`, `spc` — the diffusion topology (K/I/jcS/prS):
  channel `j` moves one molecule of species `spc j` from cell `src j`
  to cell `dst j` at rate coefficient `K j` (§3);
* `negLog` — stands for the map u ↦ −ln u used for the exponential
  waiting time τ = −ln(u)/total (§4.3); kept abstract since the model
  is over ℚ;
* `stream` — the uniform random-number stream consumed by the run. -/
structure Model where
  Ncells : ℕ
  Mspecies : ℕ
  Mreactions : ℕ
  M1 : ℕ
  rfun : ℕ → List ℤ → ℚ → ℚ → List ℚ → List ℚ → ℤ → ℚ
  u0 : List (List ℤ)
  N : ℕ → ℕ → ℤ
  deps : Event → List (ℕ × ℕ)
  tspan : List ℚ
  vol : List ℚ
  ldata : List (List ℚ)
  gdata : List ℚ
  sd : List ℤ
  K : ℕ → ℚ
  src : ℕ → ℕ
  dst : ℕ → ℕ
  spc : ℕ → ℕ
  negLog : ℚ → ℚ
  stream : ℕ → ℚ

/-- Modelled from the spec (§4.1, §3): the intensity of one event in the
current state `x` at time `t`.  A reaction's propensity comes from the
caller-supplied propensity function of its cell; a diffusion channel's
intensity is rate × current count of the species in the source cell. -/
def intensity (M : Model) (x : List (List ℤ)) (t : ℚ) : Event → ℚ
  | .reaction c r =>
      M.rfun r (x.getD c []) t (M.vol.getD c 0) (M.ldata.getD c []) M.gdata (M.sd.getD c 0)
  | .diffusion j => M.K j * (((x.getD (M.src j) []).getD (M.spc j) 0 : ℤ) : ℚ)

/-- Modelled from the spec (§4.2, §4.3): the fixed enumeration of the
events belonging to one cell — its `Mreactions` reactions first, then
its outgoing diffusion channels in channel order. -/
def cellEvents (M : Model) (c : ℕ) : List Event :=
  (List.range M.Mreactions).map (Event.reaction c) ++
    ((List.range M.M1).filter (fun j => M.src j == c)).map Event.diffusion

/-- The fixed cumulative-sum order of all events: cell-major
concatenation of the per-cell event lists. -/
def events (M : Model) : List Event :=
  ((List.range M.Ncells).map (cellEvents M)).flatten

/-- Modelled from the spec (§4.2): the propensity/intensity table
recomputed from scratch from state `x` at time `t` — one row per cell,
aligned with `cellEvents`. -/
def scratchTable (M : Model) (x : List (List ℤ)) (t : ℚ) : List (List ℚ) :=
  (List.range M.Ncells).map (fun c => (cellEvents M c).map (intensity M x t))

/-- The event sitting at entry `k` of cell `c`'s table row. -/
def eventOf (M : Model) (c k : ℕ) : Event :=
  (cellEvents M c).getD k (Event.reaction 0 0)

/-- Modelled from the spec (§4.4): add reaction `r`'s stoichiometric
delta vector to a cell's species-count vector. -/
def addStoich (M : Model) (r : ℕ) (v : List ℤ) : List ℤ :=
  (List.range M.Mspecies).foldl (fun w s => w.set s (w.getD s 0 + M.N s r)) v

/-- Modelled from the spec (§4.4): the effect of an event on the state.
A reaction adds its delta vector in the firing cell; a diffusion firing
decrements the species count by one in the source cell and increments
it by one in the destination cell. -/
def applyEvent (M : Model) (e : Event) (x : List (List ℤ)) : List (List ℤ) :=
  match e with
  | .reaction c r => x.set c (addStoich M r (x.getD c []))
  | .diffusion j =>
      let x1 := x.set (M.src j)
        ((x.getD (M.src j) []).set (M.spc j) ((x.getD (M.src j) []).getD (M.spc j) 0 - 1))
      x1.set (M.dst j)
        ((x1.getD (M.dst j) []).set (M.spc j) ((x1.getD (M.dst j) []).getD (M.spc j) 0 + 1))

/-- Does any cell hold a negative species count? -/
def hasNeg (x : List (List ℤ)) : Bool :=
  x.any (fun v => v.any (fun z => decide (z < 0)))

/-- Modelled from the spec (§4.3): Direct-Method selection — the index
of the first entry, in the fixed cumulative-sum order, whose cumulative
sum is ≥ the scaled draw `v`. -/
def selectIdx (l : List ℚ) (v : ℚ) : ℕ :=
  match l with
  | [] => 0
  | a :: rest => if v ≤ a then 0 else selectIdx rest (v - a) + 1

/-- Inclusive cumulative sum of the first `i+1` entries. -/
def cum (l : List ℚ) (i : ℕ) : ℚ :=
  (l.take (i + 1)).sum

/-- Modelled from the spec (§4.3): the event chosen by the selection
draw scaled by the grand total, via first-entry-with-cumsum-≥ search
over the flattened table. -/
def selectEvent (M : Model) (table : List (List ℚ)) (v : ℚ) : Event :=
  (events M).getD (selectIdx table.flatten v) (Event.reaction 0 0)

/-- Modelled from the spec (§4.5): how many pending output times (the
given suffix of tspan) the post-event clock `tnew` equals or exceeds —
the number of iterations of the recorder's while loop. -/
def dueCount (ts : List ℚ) (tnew : ℚ) : ℕ :=
  (ts.takeWhile (fun a => decide (a ≤ tnew))).length

/-- The fatal fault taxonomy of §7 that the core itself can raise. -/
inductive Fault where
  | modelInput
  | stateConsistency
deriving DecidableEq

/-- The incrementally maintained intensity bookkeeping (§4.2): the
per-(cell, entry) table, the per-cell row sums, and the grand total. -/
structure Tbl where
  table : List (List ℚ)
  srrate : List ℚ
  total : ℚ
deriving DecidableEq

/-- Modelled from the spec (§4.2, §4.1): recompute one dependent entry
from the post-event state, abort on a negative propensity (never floor
it to zero), and update the row sum and grand total by the delta. -/
def recompute1 (M : Model) (x : List (List ℤ)) (t : ℚ) (acc : Tbl) (ck : ℕ × ℕ) :
    Except Fault Tbl :=
  let c := ck.1
  let k := ck.2
  let row := acc.table.getD c []
  if c < acc.table.length ∧ k < row.length then
    let old := row.getD k 0
    let nv := intensity M x t (eventOf M c k)
    if nv < 0 then .error .modelInput
    else .ok ⟨acc.table.set c (row.set k nv),
              acc.srrate.set c (acc.srrate.getD c 0 + nv - old),
              acc.total + nv - old⟩
  else .ok acc

/-- Modelled from the spec (§4.2): recompute exactly the entries named
by the dependency graph for the fired event, in order. -/
def recomputeDeps (M : Model) (x : List (List ℤ)) (t : ℚ) :
    List (ℕ × ℕ) → Tbl → Except Fault Tbl
  | [], acc => .ok acc
  | ck :: rest, acc =>
      match recompute1 M x t acc ck with
      | .error f => .error f
      | .ok acc2 => recomputeDeps M x t rest acc2

/-- The per-realization mutable context (§9): state, clock, intensity
bookkeeping, count of consumed random draws, next output index, and the
output buffer (the list of recorded snapshots). -/
structure SimState where
  x : List (List ℤ)
  t : ℚ
  tbl : Tbl
  rcnt : ℕ
  it : ℕ
  U : List (List (List ℤ))
deriving DecidableEq

/-- The waiting time τ = −ln(u)/total of the next step (§4.3), with
`negLog` standing for −ln and `u` the first draw of the step. -/
def stepTau (M : Model) (s : SimState) : ℚ :=
  M.negLog (M.stream s.rcnt) / s.tbl.total

/-- The advanced clock after the next step's waiting time. -/
def stepClock (M : Model) (s : SimState) : ℚ :=
  s.t + stepTau M s

/-- The event chosen by the next step: the second draw of the step,
scaled by the grand total, fed to the Direct-Method search. -/
def stepEvent (M : Model) (s : SimState) : Event :=
  selectEvent M s.tbl.table (M.stream (s.rcnt + 1) * s.tbl.total)

/-- Result of one simulation step. -/
inductive StepRes where
  | cont (s : SimState)
  | fail (f : Fault) (U : List (List (List ℤ)))
deriving DecidableEq

/-- Modelled from the spec (§4.3→§4.5→§4.4, composed by §4.6): one
simulation step.  Draw u, advance the clock by τ = −ln(u)/total; draw
again and select the event; record the pre-event state at every pending
output time the new clock equals or exceeds; apply the event's effect,
aborting if a count would go negative; recompute the dependent entries,
aborting on a negative propensity. -/
def step (M : Model) (s : SimState) : StepRes :=
  let tnew := stepClock M s
  let e := stepEvent M s
  let k := dueCount (M.tspan.drop s.it) tnew
  let Unew := s.U ++ List.replicate k s.x
  let xnew := applyEvent M e s.x
  if hasNeg xnew then .fail .stateConsistency Unew
  else
    match recomputeDeps M xnew tnew (M.deps e) s.tbl with
    | .error f => .fail f Unew
    | .ok tb => .cont ⟨xnew, tnew, tb, s.rcnt + 2, s.it + k, Unew⟩

/-- Outcome of a run: all outputs recorded, a fatal fault with the
outputs recorded so far preserved, or out of modelling fuel. -/
inductive Outcome where
  | done (U : List (List (List ℤ)))
  | failed (f : Fault) (U : List (List (List ℤ)))
  | outOfFuel (s : SimState)
deriving DecidableEq

/-- Modelled from the spec (§4.6 DRAINING, §7): fill every remaining
requested output time by copying the final state forward. -/
def drain (s : SimState) (tlen : ℕ) : List (List (List ℤ)) :=
  s.U ++ List.replicate (tlen - s.it) s.x

/-- Modelled from the spec (§4.6): the driver loop.  Stop when all
output times are recorded; if the grand total intensity is zero, drain
(a legitimate silence, not an error); otherwise take one step.  The
second component is the progress report trace, governed by the
verbosity level `rl`, which must not alter simulation semantics. -/
def runLoop (M : Model) (rl : ℕ) : ℕ → SimState → Outcome × List ℚ
  | 0, s => (.outOfFuel s, [])
  | fuel + 1, s =>
      if M.tspan.length ≤ s.it then (.done s.U, [])
      else if s.tbl.total = 0 then (.done (drain s M.tspan.length), [])
      else
        match step M s with
        | .fail f U => (.failed f U, [])
        | .cont s2 =>
            let rest := runLoop M rl fuel s2
            (rest.1, (if 0 < rl then [s2.t] else []) ++ rest.2)

/-- Modelled from the spec (§4.2 initialization): evaluate every entry
once at t = tspan[0] and take row sums and the grand total. -/
def initTbl (M : Model) : Tbl :=
  let tb := scratchTable M M.u0 (M.tspan.getD 0 0)
  ⟨tb, tb.map List.sum, (tb.map List.sum).sum⟩

/-- Does the initial table hold a negative propensity? -/
def tblHasNeg (tb : List (List ℚ)) : Bool :=
  tb.any (fun row => row.any (fun q => decide (q < 0)))

/-- Modelled from the spec (§4.6 INITIALIZING): the state entering the
RUNNING loop — initial counts, clock at tspan[0], full table, no draws
consumed, the state at the first requested output time recorded. -/
def initState (M : Model) : SimState :=
  ⟨M.u0, M.tspan.getD 0 0, initTbl M, 0, 1, [M.u0]⟩

/-- Modelled from the spec (§4.6, §6): one full realization of the ssa
call — initial full evaluation (aborting on a negative propensity),
then the driver loop. -/
def ssaRun (M : Model) (rl fuel : ℕ) : Outcome × List ℚ :=
  if M.tspan.length = 0 then (.done [], [])
  else if tblHasNeg (initTbl M).table then (.failed .modelInput [], [])
  else runLoop M rl fuel (initState M)

/-- The output buffer of an outcome (for a failed run, the outputs
recorded before the fault; for an exhausted run, those recorded so far). -/
def outU : Outcome → List (List (List ℤ))
  | .done U => U
  | .failed _ U => U
  | .outOfFuel s => s.U

/-- The memory visible to one `ssa` call: every const-qualified input
array of the C signature (bundled as the model) plus the output buffer
`U`, the only non-const array argument. -/
structure Mem where
  model : Model
  U : List (List (List ℤ))

/-- Modelled from the spec (§6): the `ssa` call viewed as a memory
transformer — it runs the realization and writes the output buffer. -/
def ssaCall (m : Mem) (rl fuel : ℕ) : Mem :=
  ⟨m.model, outU (ssaRun m.model rl fuel).1⟩

/-- Every species count in every cell is non-negative. -/
def nonnegX (x : List (List ℤ)) : Prop :=
  ∀ v ∈ x, ∀ z ∈ v, 0 ≤ z

/-- The §3 table invariant: the incrementally maintained table, the
per-cell row sums and the grand total all equal what a from-scratch
recomputation from the current state and clock would produce. -/
def tblInv (M : Model) (s : SimState) : Prop :=
  s.tbl.table = scratchTable M s.x s.t ∧
  s.tbl.srrate = (scratchTable M s.x s.t).map List.sum ∧
  s.tbl.total = ((scratchTable M s.x s.t).map List.sum).sum

/-- Completeness of the caller-supplied dependency graph (§4.2): every
table entry not named by the graph for an event has the same value
before and after that event fires (at any evaluation times). -/
def DepComplete (M : Model) : Prop :=
  ∀ (e : Event) (x : List (List ℤ)) (t t2 : ℚ) (c k : ℕ),
    c < M.Ncells → k < (cellEvents M c).length → (c, k) ∉ M.deps e →
    intensity M (applyEvent M e x) t2 (eventOf M c k) = intensity M x t (eventOf M c k)

/-- Total molecule count of species `q` summed over all cells. -/
def totS (x : List (List ℤ)) (q : ℕ) : ℤ :=
  (x.map (fun v => v.getD q 0)).sum

/-- The state's shape: one row per cell, `Mspecies` counts per row. -/
def shapeX (M : Model) (x : List (List ℤ)) : Prop :=
  x.length = M.Ncells ∧ ∀ v ∈ x, v.length = M.Mspecies

/-- A concrete two-cell pure-diffusion instance used to evaluate the
model on explicit inputs: one species, no reactions, one channel moving
the species from cell 0 to cell 1 at rate 1. -/
def Wdiff : Model where
  Ncells := 2
  Mspecies := 1
  Mreactions := 0
  M1 := 1
  rfun := fun _ _ _ _ _ _ _ => 0
  u0 := [[2], [1]]
  N := fun _ _ => 0
  deps := fun _ => [(0, 0)]
  tspan := [0, 1, 5]
  vol := [1, 1]
  ldata := [[], []]
  gdata := []
  sd := [0, 0]
  K := fun _ => 1
  src := fun _ => 0
  dst := fun _ => 1
  spc := fun _ => 0
  negLog := fun u => 1 - u
  stream := fun _ => 1/2

/-- The pure-diffusion instance with nothing to diffuse: every
intensity is zero from t = tspan[0]. -/
def Wzero : Model :=
  { Wdiff with u0 := [[0], [0]] }

/-- A one-cell, one-reaction instance whose propensity function returns
a negative value: a model-input fault generator. -/
def Wneg : Model where
  Ncells := 1
  Mspecies := 1
  Mreactions := 1
  M1 := 0
  rfun := fun _ _ _ _ _ _ _ => -1
  u0 := [[1]]
  N := fun _ _ => 0
  deps := fun _ => [(0, 0)]
  tspan := [0, 1]
  vol := [1]
  ldata := [[]]
  gdata := []
  sd := [0]
  K := fun _ => 0
  src := fun _ => 0
  dst := fun _ => 0
  spc := fun _ => 0
  negLog := fun u => 1 - u
  stream := fun _ => 1/2

/-- A concrete mid-run context of `Wdiff` whose next waiting time
crosses the pending output time tspan[1] = 1. -/
def stateCross : SimState :=
  ⟨[[2], [1]], 0, ⟨[[1], []], [1, 0], 1/4⟩, 0, 1, [[[2], [1]]]⟩

/-- A concrete context of `Wneg` about to evaluate the negative
propensity while the state itself stays consistent. -/
def stateNeg : SimState :=
  ⟨[[1]], 0, ⟨[[1]], [1], 1⟩, 0, 1, [[[1]]]⟩

/-- A concrete silent context of `Wdiff`: grand total intensity zero
with one output time recorded and two still pending. -/
def stateSilent : SimState :=
  ⟨[[0], [3]], 3/4, ⟨[[0], []], [0, 0], 0⟩, 4, 1, [[[2], [1]]]⟩

/-- The context produced by one step of `Wdiff` from its initial
context: one molecule has jumped from cell 0 to cell 1. -/
def stateAfter : SimState :=
  ⟨[[1], [2]], 1/4, ⟨[[1], []], [1, 0], 1⟩, 2, 1, [[[2], [1]]]⟩

/-- The context produced by one step of `Wdiff` from `stateCross`: the
clock jumped to 2, past the pending output time 1, which got recorded
with the pre-event state. -/
def stateCrossed : SimState :=
  ⟨[[1], [2]], 2, ⟨[[1], []], [1, 0], 1/4⟩, 2, 2, [[[2], [1]], [[2], [1]]]⟩

theorem getD_map_apply {α β : Type} (f : α → β) (l : List α) (i : ℕ) (d : α) :
    (l.map f).getD i (f d) = f (l.getD i d) := by
  induction l generalizing i with
  | nil => simp
  | cons a t ih => cases i <;> simp [ih]

theorem sum_set {α : Type} [AddCommGroup α] (l : List α) (i : ℕ) (v : α)
    (hi : i < l.length) : (l.set i v).sum = l.sum - l.getD i 0 + v := by
  induction l generalizing i with
  | nil => simp at hi
  | cons a t ih =>
    cases i with
    | zero => simp; abel
    | succ i =>
      have := ih i (by simpa using hi)
      simp [this]
      abel

theorem map_set {α β : Type} (f : α → β) (l : List α) (i : ℕ) (v : α) :
    (l.set i v).map f = (l.map f).set i (f v) := by
  induction l generalizing i with
  | nil => simp
  | cons a t ih => cases i <;> simp [ih]

theorem getD_set_self {α : Type} (l : List α) (i : ℕ) (v d : α) (hi : i < l.length) :
    (l.set i v).getD i d = v := by
  simp [List.getD_eq_getElem?_getD, List.getElem?_set_self hi]

theorem getD_set_ne {α : Type} (l : List α) (i j : ℕ) (v d : α) (hij : i ≠ j) :
    (l.set i v).getD j d = l.getD j d := by
  simp [List.getD_eq_getElem?_getD, List.getElem?_set_ne hij]

theorem set_getD_self {α : Type} (l : List α) (i : ℕ) (d : α) :
    l.set i (l.getD i d) = l := by
  induction l generalizing i with
  | nil => simp
  | cons a t ih =>
    cases i with
    | zero => simp
    | succ n =>
      have := ih n
      simp [List.getD_eq_getElem?_getD] at this
      simpa using this

theorem ext_getD {α : Type} (a : List α) (d : α) :
    ∀ (b : List α), a.length = b.length →
      (∀ i, i < a.length → a.getD i d = b.getD i d) → a = b := by
  induction a with
  | nil => intro b hlen _; cases b; rfl; simp at hlen
  | cons x t ih =>
    intro b hlen h
    cases b with
    | nil => simp at hlen
    | cons y u =>
      have h0 := h 0 (by simp)
      simp at h0
      have := ih u (by simpa using hlen) (fun i hi => by simpa using h (i + 1) (by simpa using hi))
      rw [h0, this]

theorem dueCount_le (ts : List ℚ) (tv : ℚ) : dueCount ts tv ≤ ts.length := by
  unfold dueCount
  induction ts with
  | nil => simp
  | cons a t ih =>
    rw [List.takeWhile_cons]
    split
    · simpa using ih
    · simp

theorem dueCount_sat (ts : List ℚ) (tv : ℚ) :
    ∀ j, j < dueCount ts tv → ts.getD j 0 ≤ tv := by
  induction ts with
  | nil => simp [dueCount]
  | cons a t ih =>
    intro j hj
    by_cases h : a ≤ tv
    · cases j with
      | zero => simpa using h
      | succ j =>
        simp [dueCount, List.takeWhile_cons, h] at hj
        exact ih j (by simpa [dueCount] using hj)
    · simp [dueCount, List.takeWhile_cons, h] at hj

theorem dueCount_stop (ts : List ℚ) (tv : ℚ) (h : dueCount ts tv < ts.length) :
    tv < ts.getD (dueCount ts tv) 0 := by
  induction ts with
  | nil => simp [dueCount] at h
  | cons a t ih =>
    by_cases hp : a ≤ tv
    · have hd : dueCount (a :: t) tv = dueCount t tv + 1 := by
        simp [dueCount, List.takeWhile_cons, hp]
      rw [hd] at h ⊢
      simp only [List.getD_cons_succ]
      exact ih (by simpa using h)
    · have hd : dueCount (a :: t) tv = 0 := by
        simp [dueCount, List.takeWhile_cons, hp]
      rw [hd]
      simpa using lt_of_not_le hp

theorem getD_drop (l : List ℚ) (n j : ℕ) :
    (l.drop n).getD j 0 = l.getD (n + j) 0 := by
  simp [List.getD_eq_getElem?_getD, List.getElem?_drop]

/-- Inversion of a continuing step: all components of the successor
context, the negativity guard, and the table recomputation equation. -/
theorem step_cont_inv (M : Model) (s s2 : SimState) (h : step M s = .cont s2) :
    s2.x = applyEvent M (stepEvent M s) s.x ∧
    s2.t = stepClock M s ∧
    s2.rcnt = s.rcnt + 2 ∧
    s2.it = s.it + dueCount (M.tspan.drop s.it) (stepClock M s) ∧
    s2.U = s.U ++ List.replicate (dueCount (M.tspan.drop s.it) (stepClock M s)) s.x ∧
    hasNeg (applyEvent M (stepEvent M s) s.x) = false ∧
    recomputeDeps M (applyEvent M (stepEvent M s) s.x) (stepClock M s)
      (M.deps (stepEvent M s)) s.tbl = .ok s2.tbl := by
  simp only [step] at h
  split at h
  · exact absurd h (by simp)
  · rename_i hneg
    split at h
    · exact absurd h (by simp)
    · rename_i tb heq
      rw [StepRes.cont.injEq] at h
      subst h
      refine ⟨rfl, rfl, rfl, rfl, rfl, ?_, heq⟩
      simpa using hneg

/-- C1: while the grand total intensity is strictly positive, a
continuing simulation step consumes exactly two random numbers in a
fixed order — the draw at position `rcnt` computes the waiting time
τ = −ln(u)/total by which the clock advances, the draw at position
`rcnt + 1` (scaled by the grand total) selects the event — and the
clock is advanced by τ before the selected event's effect is applied:
the successor clock is `t + τ` while the snapshots recorded against the
advanced clock still hold the pre-event state. -/
theorem step_consumes_two_draws_in_order (M : Model) (s s2 : SimState)
    (_hpos : 0 < s.tbl.total) (h : step M s = .cont s2) :
    s2.rcnt = s.rcnt + 2 ∧
    s2.t = s.t + M.negLog (M.stream s.rcnt) / s.tbl.total ∧
    s2.x = applyEvent M
      (selectEvent M s.tbl.table (M.stream (s.rcnt + 1) * s.tbl.total)) s.x ∧
    s2.U = s.U ++ List.replicate
      (dueCount (M.tspan.drop s.it)
        (s.t + M.negLog (M.stream s.rcnt) / s.tbl.total)) s.x := by
  obtain ⟨hx, ht, hr, _, hU, _, _⟩ := step_cont_inv M s s2 h
  exact ⟨hr, ht, hx, hU⟩

theorem selectIdx_lt_length (l : List ℚ) (v : ℚ) :
    l ≠ [] → v ≤ l.sum → selectIdx l v < l.length := by
  induction l generalizing v with
  | nil => intro hne _; exact absurd rfl hne
  | cons a rest ih =>
    intro _ hv
    simp only [selectIdx]
    split
    · simp
    · rename_i hgt
      cases rest with
      | nil =>
        simp at hv
        exact absurd hv hgt
      | cons b t =>
        have : v - a ≤ (b :: t).sum := by
          simp only [List.sum_cons] at hv ⊢
          linarith
        simpa using Nat.succ_lt_succ (ih (v - a) (by simp) this)

theorem cum_cons_zero (a : ℚ) (l : List ℚ) : cum (a :: l) 0 = a := by
  simp [cum]

theorem cum_cons_succ (a : ℚ) (l : List ℚ) (j : ℕ) :
    cum (a :: l) (j + 1) = a + cum l j := by
  simp [cum, List.take_succ_cons]

theorem le_cum_selectIdx (l : List ℚ) (v : ℚ) :
    l ≠ [] → v ≤ l.sum → v ≤ cum l (selectIdx l v) := by
  induction l generalizing v with
  | nil => intro hne _; exact absurd rfl hne
  | cons a rest ih =>
    intro _ hv
    simp only [selectIdx]
    split
    · rename_i hle
      simpa [cum_cons_zero] using hle
    · rename_i hgt
      cases rest with
      | nil =>
        simp at hv
        exact absurd hv hgt
      | cons b t =>
        have hsum : v - a ≤ (b :: t).sum := by
          simp only [List.sum_cons] at hv ⊢
          linarith
        have := ih (v - a) (by simp) hsum
        rw [cum_cons_succ]
        linarith

theorem cum_lt_of_lt_selectIdx (l : List ℚ) (v : ℚ) :
    ∀ j, j < selectIdx l v → cum l j < v := by
  induction l generalizing v with
  | nil => simp [selectIdx]
  | cons a rest ih =>
    intro j hj
    simp only [selectIdx] at hj
    split at hj
    · omega
    · rename_i hgt
      cases j with
      | zero =>
        rw [cum_cons_zero]
        exact lt_of_not_le hgt
      | succ j =>
        rw [cum_cons_succ]
        have := ih (v - a) j (by omega)
        linarith

theorem getD_le_cum (l : List ℚ) (i : ℕ) (hi : i < l.length)
    (hnn : ∀ q ∈ l, 0 ≤ q) : l.getD i 0 ≤ cum l i := by
  induction l generalizing i with
  | nil => simp at hi
  | cons a rest ih =>
    cases i with
    | zero => simp [cum_cons_zero]
    | succ i =>
      rw [cum_cons_succ, List.getD_cons_succ]
      have ha : 0 ≤ a := hnn a (by simp)
      have := ih i (by simpa using hi) (fun q hq => hnn q (by simp [hq]))
      linarith

theorem selectIdx_cum_self (l : List ℚ) (i : ℕ) (hi : i < l.length)
    (hnn : ∀ q ∈ l, 0 ≤ q) (hpos : 0 < l.getD i 0) :
    selectIdx l (cum l i) = i := by
  induction l generalizing i with
  | nil => simp at hi
  | cons a rest ih =>
    cases i with
    | zero => simp [selectIdx, cum_cons_zero]
    | succ i =>
      have hipos : 0 < rest.getD i 0 := by simpa using hpos
      have hnn2 : ∀ q ∈ rest, 0 ≤ q := fun q hq => hnn q (by simp [hq])
      have hcum : 0 < cum rest i :=
        lt_of_lt_of_le hipos (getD_le_cum rest i (by simpa using hi) hnn2)
      rw [cum_cons_succ]
      simp only [selectIdx]
      split
      · rename_i hle
        linarith
      · have harg : a + cum rest i - a = cum rest i := by ring
        rw [harg, ih i (by simpa using hi) hnn2 hipos]

/-- C2: the Direct-Method selection always picks the first entry, in
the fixed cumulative-sum order, whose cumulative sum is ≥ the scaled
draw (`selectEvent` applies exactly this search, via `selectIdx`, to
the flattened table scaled by the grand total): the chosen index is in
range, its cumulative sum reaches the draw, every earlier cumulative
sum falls short, and every entry with nonzero intensity is selected by
some draw value, namely its own cumulative sum. -/
theorem selection_first_entry_cumsum_ge (l : List ℚ) (v : ℚ)
    (hne : l ≠ []) (hv : v ≤ l.sum) :
    selectIdx l v < l.length ∧
    v ≤ cum l (selectIdx l v) ∧
    (∀ j, j < selectIdx l v → cum l j < v) ∧
    (∀ i, i < l.length → (∀ q ∈ l, 0 ≤ q) → 0 < l.getD i 0 →
      cum l i ≤ l.sum ∧ selectIdx l (cum l i) = i) := by
  refine ⟨selectIdx_lt_length l v hne hv, le_cum_selectIdx l v hne hv,
    cum_lt_of_lt_selectIdx l v, fun i hi hnn hpos => ⟨?_, selectIdx_cum_self l i hi hnn hpos⟩⟩
  have hsplit : l.sum = (l.take (i + 1)).sum + (l.drop (i + 1)).sum := by
    rw [← List.sum_append, List.take_append_drop]
  have hnn2 : 0 ≤ (l.drop (i + 1)).sum :=
    List.sum_nonneg (fun q hq => hnn q (List.mem_of_mem_drop hq))
  show (l.take (i + 1)).sum ≤ l.sum
  rw [hsplit]
  linarith

theorem runLoop_fst_report_free (M : Model) (rl1 rl2 : ℕ) :
    ∀ (fuel : ℕ) (s : SimState),
      (runLoop M rl1 fuel s).1 = (runLoop M rl2 fuel s).1 := by
  intro fuel
  induction fuel with
  | zero => intro s; rfl
  | succ n ih =>
    intro s
    simp only [runLoop]
    split
    · rfl
    · split
      · rfl
      · split
        · rfl
        · simpa using ih _

/-- C8: determinism — two calls given an identical random-number
stream, identical topology (stoichiometry `N`, dependency graph `deps`,
diffusion `K`/`src`/`dst`/`spc`), identical initial state `u0` and
identical parameters produce bit-identical fully populated output
buffers, regardless of the verbosity levels, which only shape the
report trace. -/
theorem deterministic_output (Ma Mb : Model) (rl1 rl2 fuel : ℕ)
    (h1 : Ma.stream = Mb.stream) (h2 : Ma.u0 = Mb.u0) (h3 : Ma.rfun = Mb.rfun)
    (h4 : Ma.N = Mb.N) (h5 : Ma.deps = Mb.deps) (h6 : Ma.tspan = Mb.tspan)
    (h7 : Ma.vol = Mb.vol) (h8 : Ma.ldata = Mb.ldata) (h9 : Ma.gdata = Mb.gdata)
    (h10 : Ma.sd = Mb.sd) (h11 : Ma.K = Mb.K) (h12 : Ma.src = Mb.src)
    (h13 : Ma.dst = Mb.dst) (h14 : Ma.spc = Mb.spc) (h15 : Ma.negLog = Mb.negLog)
    (h16 : Ma.Ncells = Mb.Ncells) (h17 : Ma.Mspecies = Mb.Mspecies)
    (h18 : Ma.Mreactions = Mb.Mreactions) (h19 : Ma.M1 = Mb.M1) :
    (ssaRun Ma rl1 fuel).1 = (ssaRun Mb rl2 fuel).1 := by
  have hM : Ma = Mb := by
    cases Ma
    cases Mb
    simp only [Model.mk.injEq]
    exact ⟨h16, h17, h18, h19, h3, h2, h4, h5, h6, h7, h8, h9, h10, h11, h12, h13, h14, h15, h1⟩
  subst hM
  unfold ssaRun
  split
  · rfl
  · split
    · rfl
    · exact runLoop_fst_report_free Ma rl1 rl2 fuel (initState Ma)

/-- C10: the ssa call is read-only on every input: the initial counts,
the stoichiometry matrix, the dependency graph, the output times, the
volumes, the parameter blocks, the subdomain labels and the diffusion
topology are unchanged by the call (matching their const-qualified
declarations in ssa.h), and the output buffer `U` is the only memory
the call writes. -/
theorem ssa_frame (m : Mem) (rl fuel : ℕ) :
    (ssaCall m rl fuel).model.u0 = m.model.u0 ∧
    (ssaCall m rl fuel).model.N = m.model.N ∧
    (ssaCall m rl fuel).model.deps = m.model.deps ∧
    (ssaCall m rl fuel).model.tspan = m.model.tspan ∧
    (ssaCall m rl fuel).model.vol = m.model.vol ∧
    (ssaCall m rl fuel).model.ldata = m.model.ldata ∧
    (ssaCall m rl fuel).model.gdata = m.model.gdata ∧
    (ssaCall m rl fuel).model.sd = m.model.sd ∧
    (ssaCall m rl fuel).model.K = m.model.K ∧
    (ssaCall m rl fuel).model.src = m.model.src ∧
    (ssaCall m rl fuel).model.dst = m.model.dst ∧
    (ssaCall m rl fuel).model.spc = m.model.spc ∧
    (ssaCall m rl fuel).model.rfun = m.model.rfun ∧
    (ssaCall m rl fuel).model = m.model ∧
    (ssaCall m rl fuel).U = outU (ssaRun m.model rl fuel).1 :=
  ⟨rfl, rfl, rfl, rfl, rfl, rfl, rfl, rfl, rfl, rfl, rfl, rfl, rfl, rfl, rfl⟩

/-- C3: in one inter-event interval, every pending output time that the
post-event clock equals or exceeds — zero, one, or many — is recorded,
in increasing index (hence time) order, with the pre-event state `s.x`,
the state valid up to but not including the new clock value; and an
output time is recorded in this step exactly when the post-event clock
reaches it, so the state stored at each requested output time is the
state at that requested time, not the state after the triggering event. -/
theorem record_pre_event_state (M : Model) (s s2 : SimState)
    (hmono : ∀ j, j < M.tspan.length → ∀ i, i < j → M.tspan.getD i 0 < M.tspan.getD j 0)
    (h : step M s = .cont s2) :
    s.it ≤ s2.it ∧
    s2.U = s.U ++ List.replicate (s2.it - s.it) s.x ∧
    (∀ i, s.it ≤ i → i < M.tspan.length →
      (M.tspan.getD i 0 ≤ s2.t ↔ i < s2.it)) := by
  obtain ⟨_, ht, _, hit, hU, _, _⟩ := step_cont_inv M s s2 h
  set k := dueCount (M.tspan.drop s.it) (stepClock M s) with hk
  have hsub : s2.it - s.it = k := by omega
  refine ⟨by omega, by rw [hsub, hU], ?_⟩
  intro i hle hlt
  rw [ht, hit]
  constructor
  · intro hdue
    by_contra hge
    push_neg at hge
    have hklt : k < (M.tspan.drop s.it).length := by
      rw [List.length_drop]
      omega
    have hstop := dueCount_stop (M.tspan.drop s.it) (stepClock M s) hklt
    rw [← hk, getD_drop] at hstop
    rcases Nat.lt_or_ge (s.it + k) i with hlt2 | hge2
    · have := hmono i hlt (s.it + k) hlt2
      linarith
    · have hi : s.it + k = i := by omega
      rw [hi] at hstop
      linarith
  · intro hlt2
    have hsat := dueCount_sat (M.tspan.drop s.it) (stepClock M s) (i - s.it) (by omega)
    rw [getD_drop] at hsat
    have hi : s.it + (i - s.it) = i := by omega
    rwa [hi] at hsat

/-- C4: a zero grand total intensity — whenever it is reached, at the
start or mid-run — is a legitimate silence, not an error: the driver
immediately reports done, fills every remaining requested output time
by copying the current state forward, and fires no further event; in
particular, when every reaction propensity and diffusion intensity is
zero at t = tspan[0], the whole run succeeds with every output
snapshot equal to the initial state. -/
theorem zero_intensity_silent (M : Model) (s : SimState) (rl fuel : ℕ)
    (h0 : s.tbl.total = 0) :
    (runLoop M rl (fuel + 1) s).1 =
      .done (s.U ++ List.replicate (M.tspan.length - s.it) s.x) ∧
    ((∀ e ∈ events M, intensity M M.u0 (M.tspan.getD 0 0) e = 0) →
      M.tspan.length ≠ 0 →
      (ssaRun M rl (fuel + 1)).1 = .done (List.replicate M.tspan.length M.u0)) := by
  constructor
  · simp only [runLoop]
    rcases Nat.lt_or_ge s.it M.tspan.length with hlt | hge
    · rw [if_neg (by omega), if_pos h0]
      simp [drain]
    · rw [if_pos (by omega)]
      have hz2 : M.tspan.length - s.it = 0 := by omega
      simp [hz2]
  · intro hz hlen
    have hent : ∀ row ∈ scratchTable M M.u0 (M.tspan.getD 0 0), ∀ q ∈ row, q = 0 := by
      intro row hrow q hq
      simp only [scratchTable, List.mem_map] at hrow
      obtain ⟨c, hc, rfl⟩ := hrow
      simp only [List.mem_map] at hq
      obtain ⟨e, he, rfl⟩ := hq
      apply hz
      simp only [events, List.mem_flatten]
      exact ⟨cellEvents M c, List.mem_map_of_mem _ hc, he⟩
    have hnegf : tblHasNeg (initTbl M).table = false := by
      simp only [tblHasNeg, initTbl, List.any_eq_false]
      intro row hrow
      rw [Bool.not_eq_true, List.any_eq_false]
      intro q hq
      simp [hent row hrow q hq]
    have htot : (initState M).tbl.total = 0 := by
      simp only [initState, initTbl]
      apply List.sum_eq_zero
      intro q hq
      simp only [List.mem_map] at hq
      obtain ⟨row, hrow, rfl⟩ := hq
      exact List.sum_eq_zero (fun z hz2 => hent row hrow z hz2)
    unfold ssaRun
    rw [if_neg hlen, if_neg (by simp [hnegf])]
    simp only [runLoop]
    rcases Nat.lt_or_ge (initState M).it M.tspan.length with hlt | hge
    · rw [if_neg (by omega), if_pos htot]
      cases hcase : M.tspan.length with
      | zero => exact absurd hcase hlen
      | succ n =>
        simp [drain, initState, hcase, List.replicate_succ]
    · rw [if_pos (by omega)]
      have hit : (initState M).it = 1 := rfl
      rw [hit] at hge
      have h1 : M.tspan.length = 1 := by omega
      simp [initState, h1]

theorem hasNeg_false_iff (x : List (List ℤ)) : hasNeg x = false ↔ nonnegX x := by
  simp [hasNeg, nonnegX, List.any_eq_false, not_lt]

theorem step_nonneg_preserved (M : Model) (s : SimState)
    (hx : nonnegX s.x) (hU : ∀ u ∈ s.U, nonnegX u) :
    (∀ f U, step M s = .fail f U → ∀ u ∈ U, nonnegX u) ∧
    (∀ s2, step M s = .cont s2 → nonnegX s2.x ∧ ∀ u ∈ s2.U, nonnegX u) := by
  have hrep : ∀ (k : ℕ), ∀ u ∈ s.U ++ List.replicate k s.x, nonnegX u := by
    intro k u hu
    rcases List.mem_append.1 hu with hm | hm
    · exact hU u hm
    · rw [List.eq_of_mem_replicate hm]
      exact hx
  constructor
  · intro f U hf
    simp only [step] at hf
    split at hf
    · rw [StepRes.fail.injEq] at hf
      obtain ⟨_, rfl⟩ := hf
      exact hrep _
    · split at hf
      · rw [StepRes.fail.injEq] at hf
        obtain ⟨_, rfl⟩ := hf
        exact hrep _
      · exact absurd hf (by simp)
  · intro s2 hc
    obtain ⟨hx2, _, _, _, hU2, hguard, _⟩ := step_cont_inv M s s2 hc
    refine ⟨?_, ?_⟩
    · rw [hx2]
      exact (hasNeg_false_iff _).1 hguard
    · rw [hU2]
      exact hrep _

theorem runLoop_nonneg (M : Model) (rl : ℕ) :
    ∀ (fuel : ℕ) (s : SimState), nonnegX s.x → (∀ u ∈ s.U, nonnegX u) →
      ∀ u ∈ outU (runLoop M rl fuel s).1, nonnegX u := by
  intro fuel
  induction fuel with
  | zero =>
    intro s hx hU
    simpa [runLoop, outU] using hU
  | succ n ih =>
    intro s hx hU
    simp only [runLoop]
    split
    · simpa [outU] using hU
    · split
      · simp only [outU, drain]
        intro u hu
        rcases List.mem_append.1 hu with hm | hm
        · exact hU u hm
        · rw [List.eq_of_mem_replicate hm]
          exact hx
      · split
        · rename_i f U hf
          simp only [outU]
          exact (step_nonneg_preserved M s hx hU).1 f U hf
        · rename_i s2 hc
          obtain ⟨hx2, hU2⟩ := (step_nonneg_preserved M s hx hU).2 s2 hc
          exact ih s2 hx2 hU2

/-- C6: if the initial counts are non-negative then species counts in
every cell are non-negative in every recorded output snapshot, for
every outcome (completed, failed, or exhausted); a step continues only
with a non-negative successor state, and a step whose selected event
would drive a count below zero aborts with the fatal state-consistency
fault — it never clamps the count and never continues the run. -/
theorem counts_nonneg_at_outputs (M : Model) (rl fuel : ℕ) (h0 : nonnegX M.u0) :
    (∀ u ∈ outU (ssaRun M rl fuel).1, nonnegX u) ∧
    (∀ s s2 : SimState, step M s = .cont s2 → hasNeg s2.x = false) ∧
    (∀ s : SimState, hasNeg (applyEvent M (stepEvent M s) s.x) = true →
      step M s = .fail .stateConsistency
        (s.U ++ List.replicate (dueCount (M.tspan.drop s.it) (stepClock M s)) s.x)) := by
  refine ⟨?_, ?_, ?_⟩
  · unfold ssaRun
    split
    · simp [outU]
    · split
      · simp [outU]
      · apply runLoop_nonneg M rl fuel (initState M) h0
        intro u hu
        simp only [initState] at hu
        rw [List.mem_singleton] at hu
        rw [hu]
        exact h0
  · intro s s2 hc
    obtain ⟨hx2, _, _, _, _, hguard, _⟩ := step_cont_inv M s s2 hc
    rw [hx2]
    exact hguard
  · intro s hneg
    simp only [step]
    rw [hneg]
    simp

theorem recompute1_error_modelInput (M : Model) (x : List (List ℤ)) (t : ℚ)
    (acc : Tbl) (ck : ℕ × ℕ) (f : Fault)
    (h : recompute1 M x t acc ck = .error f) : f = .modelInput := by
  simp only [recompute1] at h
  split at h
  · split at h
    · rw [Except.error.injEq] at h
      exact h.symm
    · exact absurd h (by simp)
  · exact absurd h (by simp)

theorem recomputeDeps_error_modelInput (M : Model) (x : List (List ℤ)) (t : ℚ) :
    ∀ (l : List (ℕ × ℕ)) (acc : Tbl) (f : Fault),
      recomputeDeps M x t l acc = .error f → f = .modelInput := by
  intro l
  induction l with
  | nil =>
    intro acc f h
    simp [recomputeDeps] at h
  | cons ck rest ih =>
    intro acc f h
    simp only [recomputeDeps] at h
    split at h
    · rename_i f2 heq
      rw [Except.error.injEq] at h
      subst h
      exact recompute1_error_modelInput M x t acc ck _ heq
    · rename_i acc2 heq
      exact ih acc2 f h

theorem recompute1_ok_lengths (M : Model) (x : List (List ℤ)) (t : ℚ)
    (acc : Tbl) (ck : ℕ × ℕ) (acc2 : Tbl)
    (h : recompute1 M x t acc ck = .ok acc2) :
    acc2.table.length = acc.table.length ∧
    ∀ c, (acc2.table.getD c []).length = (acc.table.getD c []).length := by
  simp only [recompute1] at h
  split at h
  · rename_i hin
    split at h
    · exact absurd h (by simp)
    · rw [Except.ok.injEq] at h
      subst h
      constructor
      · simp
      · intro c
        by_cases hc : ck.1 = c
        · subst hc
          rw [getD_set_self _ _ _ _ hin.1]
          simp
        · rw [getD_set_ne _ _ _ _ _ hc]
  · rw [Except.ok.injEq] at h
    subst h
    exact ⟨rfl, fun c => rfl⟩

theorem recomputeDeps_neg_aborts (M : Model) (x : List (List ℤ)) (t : ℚ) :
    ∀ (l : List (ℕ × ℕ)) (acc : Tbl) (c k : ℕ),
      (c, k) ∈ l → c < acc.table.length → k < (acc.table.getD c []).length →
      intensity M x t (eventOf M c k) < 0 →
      recomputeDeps M x t l acc = .error .modelInput := by
  intro l
  induction l with
  | nil =>
    intro acc c k hmem
    simp at hmem
  | cons ck rest ih =>
    intro acc c k hmem hc hk hneg
    simp only [recomputeDeps]
    rcases List.mem_cons.1 hmem with heq | hmem2
    · have h1 : recompute1 M x t acc ck = .error .modelInput := by
        rw [← heq]
        simp only [recompute1]
        rw [if_pos ⟨hc, hk⟩, if_pos hneg]
      rw [h1]
    · cases hr : recompute1 M x t acc ck with
      | error f =>
        have hf := recompute1_error_modelInput M x t acc ck f hr
        subst hf
        rfl
      | ok acc2 =>
        obtain ⟨hl, hrow⟩ := recompute1_ok_lengths M x t acc ck acc2 hr
        exact ih acc2 c k hmem2 (by omega) (by rw [hrow]; exact hk) hneg

/-- C7: if the caller-supplied propensity function returns a negative
value for an entry the dependency graph orders recomputed, the step
aborts immediately with the fatal model-input fault — the value is not
floored to zero, no repair is attempted, and only the outputs already
due are kept. -/
theorem negative_propensity_aborts (M : Model) (s : SimState) (c k : ℕ)
    (hmem : (c, k) ∈ M.deps (stepEvent M s))
    (hc : c < s.tbl.table.length)
    (hk : k < (s.tbl.table.getD c []).length)
    (hneg : intensity M (applyEvent M (stepEvent M s) s.x) (stepClock M s) (eventOf M c k) < 0)
    (hok : hasNeg (applyEvent M (stepEvent M s) s.x) = false) :
    step M s = .fail .modelInput
      (s.U ++ List.replicate (dueCount (M.tspan.drop s.it) (stepClock M s)) s.x) := by
  have herr := recomputeDeps_neg_aborts M (applyEvent M (stepEvent M s) s.x) (stepClock M s)
    (M.deps (stepEvent M s)) s.tbl c k hmem hc hk hneg
  simp only [step]
  rw [hok]
  simp only [Bool.false_eq_true, if_false]
  rw [herr]

theorem scratch_length (M : Model) (x : List (List ℤ)) (t : ℚ) :
    (scratchTable M x t).length = M.Ncells := by
  simp [scratchTable]

theorem scratch_row (M : Model) (x : List (List ℤ)) (t : ℚ) (c : ℕ) (hc : c < M.Ncells) :
    (scratchTable M x t).getD c [] = (cellEvents M c).map (intensity M x t) := by
  simp [scratchTable, List.getD_eq_getElem?_getD, List.getElem?_map, List.getElem?_range, hc]

theorem scratch_row_length (M : Model) (x : List (List ℤ)) (t : ℚ) (c : ℕ)
    (hc : c < M.Ncells) :
    ((scratchTable M x t).getD c []).length = (cellEvents M c).length := by
  rw [scratch_row M x t c hc]
  simp

theorem scratch_entry (M : Model) (x : List (List ℤ)) (t : ℚ) (c k : ℕ)
    (hc : c < M.Ncells) (hk : k < (cellEvents M c).length) :
    ((scratchTable M x t).getD c []).getD k 0 = intensity M x t (eventOf M c k) := by
  rw [scratch_row M x t c hc]
  have hk2 : k < ((cellEvents M c).map (intensity M x t)).length := by simpa using hk
  rw [List.getD_eq_getElem?_getD, List.getElem?_eq_getElem hk2, eventOf,
      List.getD_eq_getElem?_getD, List.getElem?_eq_getElem hk]
  simp

theorem getD_map_sum_rat (l : List (List ℚ)) (i : ℕ) :
    (l.map List.sum).getD i 0 = (l.getD i []).sum :=
  getD_map_apply List.sum l i []

theorem recompute1_ok_spec (M : Model) (x : List (List ℤ)) (t : ℚ)
    (acc : Tbl) (ck : ℕ × ℕ) (acc2 : Tbl)
    (hsr : acc.srrate = acc.table.map List.sum)
    (htot : acc.total = (acc.table.map List.sum).sum)
    (h : recompute1 M x t acc ck = .ok acc2) :
    acc2.srrate = acc2.table.map List.sum ∧
    acc2.total = (acc2.table.map List.sum).sum ∧
    (∀ c k, (c, k) ≠ ck → (acc2.table.getD c []).getD k 0 = (acc.table.getD c []).getD k 0) ∧
    (ck.1 < acc.table.length → ck.2 < (acc.table.getD ck.1 []).length →
      (acc2.table.getD ck.1 []).getD ck.2 0 = intensity M x t (eventOf M ck.1 ck.2)) := by
  simp only [recompute1] at h
  split at h
  · rename_i hin
    split at h
    · exact absurd h (by simp)
    · rename_i hnn
      rw [Except.ok.injEq] at h
      subst h
      have hrowsum : (acc.table.getD ck.1 []).sum =
          (acc.table.map List.sum).getD ck.1 0 := (getD_map_sum_rat _ _).symm
      refine ⟨?_, ?_, ?_, ?_⟩
      · show acc.srrate.set ck.1 _ = _
        rw [map_set, sum_set _ _ _ hin.2, hsr]
        congr 1
        rw [getD_map_sum_rat]
        ring
      · show acc.total + _ - _ = _
        rw [map_set, sum_set _ _ _ hin.2,
          sum_set _ _ _ (by simpa using hin.1), htot, getD_map_sum_rat]
        ring
      · intro c k hck
        by_cases hc : ck.1 = c
        · subst hc
          rw [getD_set_self _ _ _ _ hin.1]
          have hkne : ck.2 ≠ k := fun hcontra => hck (by rw [← hcontra])
          rw [getD_set_ne _ _ _ _ _ hkne]
        · rw [getD_set_ne _ _ _ _ _ hc]
      · intro h1 h2
        rw [getD_set_self _ _ _ _ h1, getD_set_self _ _ _ _ h2]
  · rename_i hnotin
    rw [Except.ok.injEq] at h
    subst h
    exact ⟨hsr, htot, fun c k _ => rfl, fun h1 h2 => absurd ⟨h1, h2⟩ hnotin⟩

theorem recomputeDeps_ok_spec (M : Model) (x : List (List ℤ)) (t : ℚ) :
    ∀ (l : List (ℕ × ℕ)) (acc out : Tbl),
      acc.table.length = M.Ncells →
      (∀ c, c < M.Ncells → (acc.table.getD c []).length = (cellEvents M c).length) →
      (∀ c k, c < M.Ncells → k < (cellEvents M c).length → (c, k) ∉ l →
        (acc.table.getD c []).getD k 0 = intensity M x t (eventOf M c k)) →
      acc.srrate = acc.table.map List.sum →
      acc.total = (acc.table.map List.sum).sum →
      recomputeDeps M x t l acc = .ok out →
      out.table = scratchTable M x t ∧
      out.srrate = (scratchTable M x t).map List.sum ∧
      out.total = ((scratchTable M x t).map List.sum).sum := by
  intro l
  induction l with
  | nil =>
    intro acc out hlen hrows hagree hsr htot hok
    rw [recomputeDeps, Except.ok.injEq] at hok
    subst hok
    have htbl : acc.table = scratchTable M x t := by
      apply ext_getD acc.table []
      · rw [hlen, scratch_length]
      · intro c hc
        have hcN : c < M.Ncells := by rwa [hlen] at hc
        apply ext_getD _ (0 : ℚ)
        · rw [hrows c hcN, scratch_row_length M x t c hcN]
        · intro k hk
          have hkE : k < (cellEvents M c).length := by rwa [hrows c hcN] at hk
          rw [hagree c k hcN hkE (by simp), scratch_entry M x t c k hcN hkE]
    exact ⟨htbl, by rw [← htbl]; exact hsr, by rw [← htbl]; exact htot⟩
  | cons ck rest ih =>
    intro acc out hlen hrows hagree hsr htot hok
    simp only [recomputeDeps] at hok
    cases hr : recompute1 M x t acc ck with
    | error f =>
      rw [hr] at hok
      exact absurd hok (by simp)
    | ok acc2 =>
      rw [hr] at hok
      obtain ⟨h1, h2, h3, h4⟩ := recompute1_ok_spec M x t acc ck acc2 hsr htot hr
      obtain ⟨hl2, hrow2⟩ := recompute1_ok_lengths M x t acc ck acc2 hr
      apply ih acc2 out (by omega) (fun c hc => by rw [hrow2]; exact hrows c hc)
        ?_ h1 h2 hok
      intro c k hc hk hnot
      by_cases hck : (c, k) = ck
      · subst hck
        exact h4 (by rw [hlen]; exact hc) (by rw [hrows c hc]; exact hk)
      · rw [h3 c k hck]
        apply hagree c k hc hk
        intro hmem
        rcases List.mem_cons.1 hmem with hm | hm
        · exact hck hm
        · exact hnot hm

/-- C5: the incrementally maintained intensity table — per-entry values,
per-cell row sums and the grand total — is never stale: it holds on the
state entering the driver loop, and provided the caller-supplied
dependency graph is complete (entries it omits for an event are exactly
those whose value that event cannot change), every continuing step
recomputes precisely the entries the graph names for the fired event
before the next selection, restoring equality with a from-scratch
recomputation from the current state and clock. -/
theorem table_never_stale (M : Model) (s s2 : SimState)
    (hdep : DepComplete M) (hinv : tblInv M s) (h : step M s = .cont s2) :
    tblInv M (initState M) ∧ tblInv M s2 := by
  refine ⟨⟨rfl, rfl, rfl⟩, ?_⟩
  obtain ⟨hx2, ht2, _, _, _, _, hrec⟩ := step_cont_inv M s s2 h
  obtain ⟨htbl, hsr, htot⟩ := hinv
  have hres := recomputeDeps_ok_spec M (applyEvent M (stepEvent M s) s.x) (stepClock M s)
    (M.deps (stepEvent M s)) s.tbl s2.tbl
    (by rw [htbl, scratch_length])
    (by intro c hc; rw [htbl]; exact scratch_row_length M s.x s.t c hc)
    (by
      intro c k hc hk hnot
      rw [htbl, scratch_entry M s.x s.t c k hc hk]
      exact (hdep (stepEvent M s) s.x s.t (stepClock M s) c k hc hk hnot).symm)
    (by rw [hsr, htbl])
    (by rw [htot, htbl])
    hrec
  unfold tblInv
  rw [hx2, ht2]
  exact hres

theorem step_fail_inv (M : Model) (s : SimState) (f : Fault)
    (U : List (List (List ℤ))) (h : step M s = .fail f U) :
    U = s.U ++ List.replicate (dueCount (M.tspan.drop s.it) (stepClock M s)) s.x := by
  simp only [step] at h
  split at h
  · rw [StepRes.fail.injEq] at h
    exact h.2.symm
  · split at h
    · rw [StepRes.fail.injEq] at h
      exact h.2.symm
    · exact absurd h (by simp)

theorem addStoich_zero (M : Model) (r : ℕ) (hN : ∀ q, M.N q r = 0) (v : List ℤ) :
    addStoich M r v = v := by
  unfold addStoich
  have key : ∀ (l : List ℕ) (w : List ℤ),
      l.foldl (fun w2 q => w2.set q (w2.getD q 0 + M.N q r)) w = w := by
    intro l
    induction l with
    | nil => intro w; rfl
    | cons a tl ih =>
      intro w
      rw [List.foldl_cons, hN a, add_zero, set_getD_self]
      exact ih w
  exact key _ v

theorem applyEvent_reaction_zero (M : Model) (c r : ℕ) (hN : ∀ q, M.N q r = 0)
    (x : List (List ℤ)) : applyEvent M (.reaction c r) x = x := by
  simp only [applyEvent]
  rw [addStoich_zero M r hN, set_getD_self]

theorem totS_set (x : List (List ℤ)) (c : ℕ) (w : List ℤ) (q : ℕ) (hc : c < x.length) :
    totS (x.set c w) q = totS x q - (x.getD c []).getD q 0 + w.getD q 0 := by
  unfold totS
  rw [map_set, sum_set _ _ _ (by simpa using hc)]
  have hmap := getD_map_apply (fun v : List ℤ => v.getD q 0) x c []
  simp only [List.getD_nil] at hmap
  rw [hmap]

theorem totS_applyEvent_diffusion (M : Model) (j : ℕ) (x : List (List ℤ))
    (hsrc : M.src j < x.length) (hdst : M.dst j < x.length)
    (hs1 : M.spc j < (x.getD (M.src j) []).length)
    (hs2 : M.spc j < (x.getD (M.dst j) []).length) :
    ∀ q, totS (applyEvent M (.diffusion j) x) q = totS x q := by
  intro q
  simp only [applyEvent]
  set w1 : List ℤ :=
    (x.getD (M.src j) []).set (M.spc j) ((x.getD (M.src j) []).getD (M.spc j) 0 - 1) with hw1
  set x1 : List (List ℤ) := x.set (M.src j) w1 with hx1
  have hx1len : x1.length = x.length := by rw [hx1]; simp
  have hdst1 : M.dst j < x1.length := by rw [hx1len]; exact hdst
  have hrowdst : M.spc j < (x1.getD (M.dst j) []).length := by
    by_cases hsd : M.src j = M.dst j
    · rw [hx1, ← hsd, getD_set_self _ _ _ _ hsrc, hw1]
      simpa using hs1
    · rw [hx1, getD_set_ne _ _ _ _ _ hsd]
      exact hs2
  rw [totS_set _ _ _ _ hdst1, hx1, totS_set _ _ _ _ hsrc, ← hx1]
  by_cases hq : q = M.spc j
  · subst hq
    rw [getD_set_self _ _ _ _ hrowdst, hw1, getD_set_self _ _ _ _ hs1]
    ring
  · have hne : M.spc j ≠ q := fun hcontra => hq hcontra.symm
    rw [getD_set_ne _ _ _ _ _ hne, getD_set_ne _ _ _ _ _ hne]
    ring

theorem addStoich_length (M : Model) (r : ℕ) (v : List ℤ) :
    (addStoich M r v).length = v.length := by
  unfold addStoich
  have key : ∀ (l : List ℕ) (w : List ℤ),
      (l.foldl (fun w2 q => w2.set q (w2.getD q 0 + M.N q r)) w).length = w.length := by
    intro l
    induction l with
    | nil => intro w; rfl
    | cons a tl ih =>
      intro w
      rw [List.foldl_cons, ih]
      simp
  exact key _ v

theorem getD_mem_of_lt {α : Type} (l : List α) (i : ℕ) (d : α) (hi : i < l.length) :
    l.getD i d ∈ l := by
  rw [List.getD_eq_getElem?_getD, List.getElem?_eq_getElem hi]
  exact List.getElem_mem hi

theorem shape_applyEvent_reaction (M : Model) (c r : ℕ) (x : List (List ℤ))
    (hx : shapeX M x) : shapeX M (applyEvent M (.reaction c r) x) := by
  obtain ⟨hlen, hmem⟩ := hx
  simp only [applyEvent]
  by_cases hc : c < x.length
  · constructor
    · simp [hlen]
    · intro v hv
      rcases List.mem_or_eq_of_mem_set hv with hm | hm
      · exact hmem v hm
      · rw [hm, addStoich_length]
        exact hmem _ (getD_mem_of_lt x c [] hc)
  · rw [List.set_eq_of_length_le (by omega)]
    exact ⟨hlen, hmem⟩

theorem shape_applyEvent_diffusion (M : Model) (j : ℕ) (x : List (List ℤ))
    (hx : shapeX M x) (hsrc : M.src j < M.Ncells) (hdst : M.dst j < M.Ncells) :
    shapeX M (applyEvent M (.diffusion j) x) := by
  obtain ⟨hlen, hmem⟩ := hx
  have hsrcx : M.src j < x.length := by omega
  have hrow_src := hmem _ (getD_mem_of_lt x (M.src j) [] hsrcx)
  simp only [applyEvent]
  constructor
  · simp [hlen]
  · intro v hv
    rcases List.mem_or_eq_of_mem_set hv with hm | hm
    · rcases List.mem_or_eq_of_mem_set hm with hm2 | hm2
      · exact hmem v hm2
      · rw [hm2]
        simpa using hrow_src
    · rw [hm]
      simp only [List.length_set]
      by_cases hsd : M.src j = M.dst j
      · rw [← hsd, getD_set_self _ _ _ _ hsrcx]
        simpa using hrow_src
      · rw [getD_set_ne _ _ _ _ _ hsd]
        exact hmem _ (getD_mem_of_lt x (M.dst j) [] (by omega))

theorem mem_events_cases (M : Model) (e : Event) (he : e ∈ events M) :
    (∃ c r, e = .reaction c r) ∨
    (∃ j, j < M.M1 ∧ M.src j < M.Ncells ∧ e = .diffusion j) := by
  simp only [events, List.mem_flatten, List.mem_map] at he
  obtain ⟨l, ⟨c, hc, rfl⟩, hel⟩ := he
  simp only [cellEvents, List.mem_append, List.mem_map, List.mem_filter,
    List.mem_range] at hel
  rcases hel with ⟨r, _, rfl⟩ | ⟨j, ⟨hj, hsrc⟩, rfl⟩
  · exact Or.inl ⟨c, r, rfl⟩
  · refine Or.inr ⟨j, hj, ?_, rfl⟩
    have : M.src j = c := by simpa using hsrc
    rw [this]
    simpa using hc

theorem stepEvent_cases (M : Model) (s : SimState) :
    (∃ c r, stepEvent M s = .reaction c r) ∨
    (∃ j, j < M.M1 ∧ M.src j < M.Ncells ∧ stepEvent M s = .diffusion j) := by
  unfold stepEvent selectEvent
  rcases Nat.lt_or_ge (selectIdx s.tbl.table.flatten (M.stream (s.rcnt + 1) * s.tbl.total))
    (events M).length with hlt | hge
  · have hmem : (events M).getD
        (selectIdx s.tbl.table.flatten (M.stream (s.rcnt + 1) * s.tbl.total))
        (Event.reaction 0 0) ∈ events M := getD_mem_of_lt _ _ _ hlt
    exact mem_events_cases M _ hmem
  · rw [List.getD_eq_getElem?_getD, List.getElem?_eq_none (by omega)]
    exact Or.inl ⟨0, 0, rfl⟩

theorem step_conserve (M : Model) (s : SimState)
    (hN : ∀ r q, M.N q r = 0)
    (hbound : ∀ j, j < M.M1 → M.dst j < M.Ncells ∧ M.spc j < M.Mspecies)
    (hshape : shapeX M s.x) :
    ∀ s2, step M s = .cont s2 →
      shapeX M s2.x ∧ ∀ q, totS s2.x q = totS s.x q := by
  intro s2 hc
  obtain ⟨hx2, _, _, _, _, _, _⟩ := step_cont_inv M s s2 hc
  rcases stepEvent_cases M s with ⟨c, r, hev⟩ | ⟨j, hj, hsrc, hev⟩
  · rw [hx2, hev, applyEvent_reaction_zero M c r (fun q => hN r q)]
    exact ⟨hshape, fun q => rfl⟩
  · obtain ⟨hdst, hspc⟩ := hbound j hj
    have hsrcx : M.src j < s.x.length := by
      rw [hshape.1]
      exact hsrc
    have hdstx : M.dst j < s.x.length := by
      rw [hshape.1]
      exact hdst
    have hs1 : M.spc j < (s.x.getD (M.src j) []).length := by
      rw [hshape.2 _ (getD_mem_of_lt s.x (M.src j) [] hsrcx)]
      exact hspc
    have hs2 : M.spc j < (s.x.getD (M.dst j) []).length := by
      rw [hshape.2 _ (getD_mem_of_lt s.x (M.dst j) [] hdstx)]
      exact hspc
    rw [hx2, hev]
    exact ⟨shape_applyEvent_diffusion M j s.x hshape hsrc hdst,
      totS_applyEvent_diffusion M j s.x hsrcx hdstx hs1 hs2⟩

theorem runLoop_conserve (M : Model) (rl : ℕ)
    (hN : ∀ r q, M.N q r = 0)
    (hbound : ∀ j, j < M.M1 → M.dst j < M.Ncells ∧ M.spc j < M.Mspecies) :
    ∀ (fuel : ℕ) (s : SimState), shapeX M s.x →
      (∀ q, totS s.x q = totS M.u0 q) →
      (∀ u ∈ s.U, ∀ q, totS u q = totS M.u0 q) →
      ∀ u ∈ outU (runLoop M rl fuel s).1, ∀ q, totS u q = totS M.u0 q := by
  intro fuel
  induction fuel with
  | zero =>
    intro s _ _ hU
    simpa [runLoop, outU] using hU
  | succ n ih =>
    intro s hshape hx hU
    have hrep : ∀ (k : ℕ), ∀ u ∈ s.U ++ List.replicate k s.x, ∀ q,
        totS u q = totS M.u0 q := by
      intro k u hu
      rcases List.mem_append.1 hu with hm | hm
      · exact hU u hm
      · rw [List.eq_of_mem_replicate hm]
        exact hx
    simp only [runLoop]
    split
    · simpa [outU] using hU
    · split
      · simp only [outU, drain]
        exact hrep _
      · split
        · rename_i f U hf
          simp only [outU]
          rw [step_fail_inv M s f U hf]
          exact hrep _
        · rename_i s2 hc
          obtain ⟨hshape2, htot2⟩ := step_conserve M s hN hbound hshape s2 hc
          obtain ⟨_, _, _, _, hU2, _, _⟩ := step_cont_inv M s s2 hc
          apply ih s2 hshape2 (fun q => by rw [htot2 q]; exact hx q)
          rw [hU2]
          exact hrep _

/-- C9: over a closed topology — every reaction leaves every species
count unchanged (no source/sink reactions) and every diffusion channel
stays inside the mesh (no diffusion loss) — the total molecule count of
each species summed over all cells is the same in every recorded output
snapshot as in the initial state; and a diffusion firing moves exactly
one molecule: it decrements the source cell's count of the channel's
species by one and increments the destination cell's count by one. -/
theorem conservation_closed_topology (M : Model) (rl fuel : ℕ)
    (hN : ∀ r q, M.N q r = 0)
    (hshape0 : shapeX M M.u0)
    (hbound : ∀ j, j < M.M1 → M.dst j < M.Ncells ∧ M.spc j < M.Mspecies) :
    (∀ u ∈ outU (ssaRun M rl fuel).1, ∀ q, totS u q = totS M.u0 q) ∧
    (∀ (j : ℕ) (x : List (List ℤ)),
      M.src j < x.length → M.dst j < x.length → M.src j ≠ M.dst j →
      M.spc j < (x.getD (M.src j) []).length →
      M.spc j < (x.getD (M.dst j) []).length →
      ((applyEvent M (.diffusion j) x).getD (M.src j) []).getD (M.spc j) 0
          = (x.getD (M.src j) []).getD (M.spc j) 0 - 1 ∧
      ((applyEvent M (.diffusion j) x).getD (M.dst j) []).getD (M.spc j) 0
          = (x.getD (M.dst j) []).getD (M.spc j) 0 + 1) := by
  constructor
  · unfold ssaRun
    split
    · simp [outU]
    · split
      · simp [outU]
      · apply runLoop_conserve M rl hN hbound fuel (initState M) hshape0 (fun q => rfl)
        intro u hu
        simp only [initState] at hu
        rw [List.mem_singleton] at hu
        rw [hu]
        exact fun q => rfl
  · intro j x hsrc hdst hne hs1 hs2
    simp only [applyEvent]
    have hx1dst : (x.set (M.src j)
        ((x.getD (M.src j) []).set (M.spc j)
          ((x.getD (M.src j) []).getD (M.spc j) 0 - 1))).getD (M.dst j) []
        = x.getD (M.dst j) [] := getD_set_ne _ _ _ _ _ hne
    constructor
    · have hdstne : M.dst j ≠ M.src j := fun hcontra => hne hcontra.symm
      rw [getD_set_ne _ _ _ _ _ hdstne, getD_set_self _ _ _ _ hsrc,
        getD_set_self _ _ _ _ hs1]
    · rw [getD_set_self _ _ _ _ (by simpa using hdst), hx1dst,
        getD_set_self _ _ _ _ hs2]

theorem depComplete_Wdiff : DepComplete Wdiff := by
  intro e x t t2 c k hc hk hmem
  exfalso
  apply hmem
  have hc2 : c < 2 := hc
  match c, hc2 with
  | 0, _ =>
    have hk2 : k < 1 := hk
    have hk0 : k = 0 := by omega
    subst hk0
    show (0, 0) ∈ [(0, 0)]
    simp
  | 1, _ =>
    have hk2 : k < 0 := hk
    omega

section

attribute [local semireducible] Rat.mul Rat.add Rat.sub Rat.inv

/-- Witness for C1: one concrete continuing step of the two-cell
diffusion instance from its initial context. -/
theorem step_consumes_two_draws_in_order_witness :
    0 < (initState Wdiff).tbl.total ∧
    stateAfter.rcnt = (initState Wdiff).rcnt + 2 ∧
    stateAfter.t = (initState Wdiff).t +
      Wdiff.negLog (Wdiff.stream (initState Wdiff).rcnt) / (initState Wdiff).tbl.total ∧
    stateAfter.x = applyEvent Wdiff
      (selectEvent Wdiff (initState Wdiff).tbl.table
        (Wdiff.stream ((initState Wdiff).rcnt + 1) * (initState Wdiff).tbl.total))
      (initState Wdiff).x ∧
    stateAfter.U = (initState Wdiff).U ++ List.replicate
      (dueCount (Wdiff.tspan.drop (initState Wdiff).it)
        ((initState Wdiff).t +
          Wdiff.negLog (Wdiff.stream (initState Wdiff).rcnt) /
            (initState Wdiff).tbl.total))
      (initState Wdiff).x :=
  ⟨by decide,
    step_consumes_two_draws_in_order Wdiff (initState Wdiff) stateAfter
      (by decide) (by decide)⟩

/-- Witness for C2: selection on the table [0, 2, 1] with draw 2. -/
theorem selection_first_entry_cumsum_ge_witness :
    ([(0 : ℚ), 2, 1] ≠ []) ∧ ((2 : ℚ) ≤ [(0 : ℚ), 2, 1].sum) ∧
    (selectIdx [(0 : ℚ), 2, 1] 2 < ([(0 : ℚ), 2, 1] : List ℚ).length ∧
     (2 : ℚ) ≤ cum [(0 : ℚ), 2, 1] (selectIdx [(0 : ℚ), 2, 1] 2) ∧
     (∀ j, j < selectIdx [(0 : ℚ), 2, 1] 2 → cum [(0 : ℚ), 2, 1] j < 2) ∧
     (∀ i, i < ([(0 : ℚ), 2, 1] : List ℚ).length →
       (∀ q ∈ [(0 : ℚ), 2, 1], 0 ≤ q) → 0 < [(0 : ℚ), 2, 1].getD i 0 →
       cum [(0 : ℚ), 2, 1] i ≤ [(0 : ℚ), 2, 1].sum ∧
       selectIdx [(0 : ℚ), 2, 1] (cum [(0 : ℚ), 2, 1] i) = i)) :=
  ⟨by decide, by decide,
    selection_first_entry_cumsum_ge [(0 : ℚ), 2, 1] 2 (by decide) (by decide)⟩

/-- Witness for C3: a step of the diffusion instance whose waiting time
jumps the clock from 0 to 2, across the pending output time 1. -/
theorem record_pre_event_state_witness :
    stateCross.it ≤ stateCrossed.it ∧
    stateCrossed.U = stateCross.U ++
      List.replicate (stateCrossed.it - stateCross.it) stateCross.x ∧
    (∀ i, stateCross.it ≤ i → i < Wdiff.tspan.length →
      (Wdiff.tspan.getD i 0 ≤ stateCrossed.t ↔ i < stateCrossed.it)) :=
  record_pre_event_state Wdiff stateCross stateCrossed (by decide) (by decide)

/-- Witness for C4: a mid-run silent context (nonzero state, grand
total zero) drains by copying its state forward, and the
zero-from-t0 instance records the initial state at every output time. -/
theorem zero_intensity_silent_witness :
    (runLoop Wzero 0 (4 + 1) stateSilent).1 =
      .done (stateSilent.U ++
        List.replicate (Wzero.tspan.length - stateSilent.it) stateSilent.x) ∧
    ((∀ e ∈ events Wzero, intensity Wzero Wzero.u0 (Wzero.tspan.getD 0 0) e = 0) →
      Wzero.tspan.length ≠ 0 →
      (ssaRun Wzero 0 (4 + 1)).1 = .done (List.replicate Wzero.tspan.length Wzero.u0)) :=
  zero_intensity_silent Wzero stateSilent 0 4 (by decide)

/-- Witness for C5: the table invariant holds at the initial context of
the diffusion instance and is preserved by its first step. -/
theorem table_never_stale_witness :
    tblInv Wdiff (initState Wdiff) ∧ tblInv Wdiff stateAfter :=
  table_never_stale Wdiff (initState Wdiff) stateAfter depComplete_Wdiff
    (by unfold tblInv; decide) (by decide)

/-- Witness for C6: non-negativity of every recorded snapshot of the
diffusion instance. -/
theorem counts_nonneg_at_outputs_witness :
    (∀ u ∈ outU (ssaRun Wdiff 0 10).1, nonnegX u) ∧
    (∀ s s2 : SimState, step Wdiff s = .cont s2 → hasNeg s2.x = false) ∧
    (∀ s : SimState, hasNeg (applyEvent Wdiff (stepEvent Wdiff s) s.x) = true →
      step Wdiff s = .fail .stateConsistency
        (s.U ++ List.replicate
          (dueCount (Wdiff.tspan.drop s.it) (stepClock Wdiff s)) s.x)) :=
  counts_nonneg_at_outputs Wdiff 0 10 (by unfold nonnegX; decide)

/-- Witness for C7: the instance whose propensity function returns −1
aborts its step with the model-input fault. -/
theorem negative_propensity_aborts_witness :
    step Wneg stateNeg = .fail .modelInput
      (stateNeg.U ++ List.replicate
        (dueCount (Wneg.tspan.drop stateNeg.it) (stepClock Wneg stateNeg))
        stateNeg.x) :=
  negative_propensity_aborts Wneg stateNeg 0 0 (by decide) (by decide) (by decide)
    (by decide) (by decide)

/-- Witness for C8: two runs of the identical diffusion instance at
verbosity levels 0 and 3 produce the same output buffer. -/
theorem deterministic_output_witness :
    (ssaRun Wdiff 0 10).1 = (ssaRun Wdiff 3 10).1 :=
  deterministic_output Wdiff Wdiff 0 3 10 rfl rfl rfl rfl rfl rfl rfl rfl rfl rfl
    rfl rfl rfl rfl rfl rfl rfl rfl rfl

/-- Witness for C9: conservation of the single species of the
closed two-cell diffusion instance. -/
theorem conservation_closed_topology_witness :
    (∀ u ∈ outU (ssaRun Wdiff 0 10).1, ∀ q, totS u q = totS Wdiff.u0 q) ∧
    (∀ (j : ℕ) (x : List (List ℤ)),
      Wdiff.src j < x.length → Wdiff.dst j < x.length →
      Wdiff.src j ≠ Wdiff.dst j →
      Wdiff.spc j < (x.getD (Wdiff.src j) []).length →
      Wdiff.spc j < (x.getD (Wdiff.dst j) []).length →
      ((applyEvent Wdiff (.diffusion j) x).getD (Wdiff.src j) []).getD (Wdiff.spc j) 0
          = (x.getD (Wdiff.src j) []).getD (Wdiff.spc j) 0 - 1 ∧
      ((applyEvent Wdiff (.diffusion j) x).getD (Wdiff.dst j) []).getD (Wdiff.spc j) 0
          = (x.getD (Wdiff.dst j) []).getD (Wdiff.spc j) 0 + 1) :=
  conservation_closed_topology Wdiff 0 10 (fun r q => rfl)
    (by unfold shapeX; decide) (by decide)

end

end SSA
